import Mathlib

/-!
Verification development for the synthesis engine of `code_gen.c`
(tx_tools): a symbolic I/Q waveform generator that turns a timeline of
tone events into a stream of quantized unsigned 8-bit I/Q sample pairs.

The C source is shallowly embedded: doubles become exact rationals `ℚ`,
`size_t`/`int` become `ℕ`/`ℤ`, and the global mutable state (output
block buffer, cursor, PRNG call position) becomes explicit state records
threaded through the functions.  Parts of the program that live in
headers not present in the source tree (the oscillator lookup table of
`fast_osc.h`, its dB magnitude table, and the C library PRNG behind
`rand()`) are modelled abstractly as parameters, as documented on `Env`.
-/

namespace CodeGen

/-- Tone event.  Modelled from the spec: `tone_t` of `code_parse.h` is not
in the source tree; the spec's data model gives
`{ frequency_hz : signed real, duration_us : unsigned integer, level_db : signed integer }`. -/
structure Tone where
  hz : ℚ
  us : ℕ
  db : ℤ
  deriving DecidableEq, Repr

/-- Synthesis configuration: the globals `sample_rate`, `gain`,
`noise_floor`, `noise_signal` and `out_block_size` of `code_gen.c`. -/
structure Config where
  sampleRate : ℚ
  gain : ℚ
  noiseFloor : ℚ
  noiseSignal : ℚ
  blockSize : ℕ

/-- Modelled from the spec: the collaborators missing from the source
tree.  `osc` stands for the `fast_osc.h` lookup-table oscillator
(`get_lut_osc` then `lut_oscc`/`lut_oscs`): given the frequency, the
sample rate and a sample index it returns the in-phase and quadrature
components.  `dbToMag` stands for `db_to_mag` of `fast_osc.h`
(per the spec, the linear amplitude for an integer dB level).  `rnd`
stands for the deterministic PRNG draw sequence `rand()/RAND_MAX`
produced after `srand(random_seed)`: `rnd n` is the value of the n-th
`randf()` call. -/
structure Env where
  osc : ℚ → ℚ → ℕ → ℚ × ℚ
  dbToMag : ℤ → ℚ
  rnd : ℕ → ℚ

/-- `int bound(int x)`: clamp to `[0, 255]`. -/
def bound (x : ℤ) : ℤ :=
  if x < 0 then 0 else if 255 < x then 255 else x

/-- The C cast `(int)(x)` on a nonnegative-or-negative real: truncation
toward zero. -/
def cIntCast (x : ℚ) : ℤ :=
  if 0 ≤ x then ⌊x⌋ else ⌈x⌉

/-- The byte produced by `signal_out` for one component:
`bound((int)((v + 1.0) * 127.5))`. -/
def encodeByte (v : ℚ) : ℤ :=
  bound (cIntCast ((v + 1) * (255 / 2)))

/-- Modelled from the spec: the decoder inverse of the u8 encoding used
to state the round-trip property (`decode(byte) = byte / 127.5 - 1`);
no decoder exists in `code_gen.c`. -/
def decodeByte (b : ℤ) : ℚ :=
  (b : ℚ) / (255 / 2) - 1

/-- The encoding as the spec words it: `clamp(round((v + 1.0) * 127.5),
0, 255)`, with rounding to nearest instead of the C truncating cast. -/
def specEncodeByte (v : ℚ) : ℤ :=
  bound (round ((v + 1) * (255 / 2)))

/-- State of the Output Sink: the write cursor `out_block_pos` (bytes),
the bytes placed in the current block since the last flush, the blocks
already flushed with `write(fd, ...)`, and (for specification purposes)
the raw sample pairs passed to `signal_out`. -/
structure SinkState where
  pos : ℕ
  buf : List ℤ
  flushed : List (List ℤ)
  pairs : List (ℚ × ℚ)
  deriving DecidableEq, Repr

/-- The empty sink at engine start. -/
def initSink : SinkState := ⟨0, [], [], []⟩

/-- `signal_out(i, q)`: encode both components, append the two bytes at
the cursor, and when the cursor reaches `out_block_size` flush the whole
block and reset the cursor to zero. -/
def signalOut (size : ℕ) (i q : ℚ) (s : SinkState) : SinkState :=
  if s.pos + 2 = size then
    ⟨0, [], s.flushed ++ [s.buf ++ [encodeByte i, encodeByte q]], s.pairs ++ [(i, q)]⟩
  else
    ⟨s.pos + 2, s.buf ++ [encodeByte i, encodeByte q], s.flushed, s.pairs ++ [(i, q)]⟩

/-- `n` consecutive sample-pair writes into an initially empty sink with
block size `size` (the pair value is irrelevant to the cursor/flush
behaviour; zero is used). -/
def writePairs (size : ℕ) : ℕ → SinkState
  | 0 => initSink
  | n + 1 => signalOut size 0 0 (writePairs size n)

/-- The block-size configuration check of `main`: sizes outside
`[MINIMAL_BUF_LENGTH, MAXIMAL_BUF_LENGTH] = [512, 256*16384]` fall back
to the default `16384`; accepted sizes are kept unchanged. -/
def acceptedSize (b : ℕ) : ℕ :=
  if b < 512 ∨ 4194304 < b then 16384 else b

/-- `(size_t)(time_us * sample_rate / 1000000)`: the number of sample
pairs synthesized for a tone of `us` microseconds. -/
def sampleCount (rate : ℚ) (us : ℕ) : ℕ :=
  (⌊(us : ℚ) * rate / 1000000⌋).toNat

/-- The ramp-in factor of `add_sine`:
`att_in = t < att_steps ? (1.0 / att_steps) * t : 1.0` with
`att_steps = 100`. -/
def rampIn (t : ℕ) : ℚ :=
  if t < 100 then (1 / 100) * (t : ℚ) else 1

/-- The ramp-out factor of `add_sine`:
`att_out = t + att_steps > end ? (1.0 / att_steps) * (end - t) : 1.0`. -/
def rampOut (endN t : ℕ) : ℚ :=
  if endN < t + 100 then (1 / 100) * ((endN - t : ℕ) : ℚ) else 1

/-- The full envelope multiplier applied at sample index `t` of a tone
with `endN` samples: the product of the independently computed ramp-in
and ramp-out factors. -/
def ramp (endN t : ℕ) : ℚ :=
  rampIn t * rampOut endN t

/-- Engine state: the sink plus the position in the PRNG draw sequence
(how many `randf()` calls have happened so far). -/
structure GenState where
  sink : SinkState
  rndIdx : ℕ
  deriving DecidableEq, Repr

/-- The engine state at the start of `gen`. -/
def initGen : GenState := ⟨initSink, 0⟩

/-- One iteration of the `add_noise` loop: draw x and y noise
components, scale by `noise_floor`, and emit. -/
def noiseStep (cfg : Config) (rnd : ℕ → ℚ) (s : GenState) : GenState :=
  ⟨signalOut cfg.blockSize
      ((rnd s.rndIdx - 1 / 2) * cfg.noiseFloor)
      ((rnd (s.rndIdx + 1) - 1 / 2) * cfg.noiseFloor)
      s.sink,
    s.rndIdx + 2⟩

/-- The `add_noise` loop, `n` iterations remaining. -/
def addNoiseLoop (cfg : Config) (rnd : ℕ → ℚ) : ℕ → GenState → GenState
  | 0, s => s
  | n + 1, s => addNoiseLoop cfg rnd n (noiseStep cfg rnd s)

/-- `add_noise(time_us, db)`: emit `(size_t)(time_us * sample_rate /
1000000)` noise-only pairs (the `db` argument is unused by the C
function). -/
def add_noise (cfg : Config) (env : Env) (time_us : ℕ) (s : GenState) : GenState :=
  addNoiseLoop cfg env.rnd (sampleCount cfg.sampleRate time_us) s

/-- One iteration of the `add_sine` loop at sample index `t`: oscillator
sample times `gain * att * att_in * att_out`, plus a noise disturbance
scaled by `noise_signal`, then emit. -/
def sineStep (cfg : Config) (rnd : ℕ → ℚ) (oscc oscs : ℕ → ℚ) (att : ℚ)
    (endN t : ℕ) (s : GenState) : GenState :=
  ⟨signalOut cfg.blockSize
      (oscc t * cfg.gain * att * rampIn t * rampOut endN t +
        (rnd s.rndIdx - 1 / 2) * cfg.noiseSignal)
      (oscs t * cfg.gain * att * rampIn t * rampOut endN t +
        (rnd (s.rndIdx + 1) - 1 / 2) * cfg.noiseSignal)
      s.sink,
    s.rndIdx + 2⟩

/-- The `add_sine` loop: current sample index `t`, `n` iterations
remaining. -/
def addSineFrom (cfg : Config) (rnd : ℕ → ℚ) (oscc oscs : ℕ → ℚ) (att : ℚ)
    (endN : ℕ) : ℕ → ℕ → GenState → GenState
  | _, 0, s => s
  | t, n + 1, s =>
    addSineFrom cfg rnd oscc oscs att endN (t + 1) n
      (sineStep cfg rnd oscc oscs att endN t s)

/-- `add_sine(freq_hz, time_us, db)`: acquire the oscillator for
`(freq_hz, sample_rate)`, convert `db` to a linear magnitude once, and
run the per-sample loop for the computed sample count. -/
def add_sine (cfg : Config) (env : Env) (freq_hz : ℚ) (time_us : ℕ) (db : ℤ)
    (s : GenState) : GenState :=
  addSineFrom cfg env.rnd
    (fun t => (env.osc freq_hz cfg.sampleRate t).1)
    (fun t => (env.osc freq_hz cfg.sampleRate t).2)
    (env.dbToMag db)
    (sampleCount cfg.sampleRate time_us)
    0 (sampleCount cfg.sampleRate time_us) s

/-- The per-tone dispatch of `gen`: `tone->db < -24` selects the
noise-only branch, otherwise the oscillator branch. -/
def processTone (cfg : Config) (env : Env) (tone : Tone) (s : GenState) : GenState :=
  if tone.db < -24 then add_noise cfg env tone.us s
  else add_sine cfg env tone.hz tone.us tone.db s

/-- The tone loop of `gen`:
`for (tone = symbol->tone; tone->us && !do_exit; ++tone)`.
`cancel i` is the value of the `do_exit` flag at the i-th loop-condition
check (the flag is written asynchronously by the signal handler, and
read only here, between tone events). -/
def genLoop (cfg : Config) (env : Env) (cancel : ℕ → Bool) :
    List Tone → ℕ → GenState → GenState
  | [], _, s => s
  | tone :: rest, i, s =>
    if tone.us = 0 ∨ cancel i = true then s
    else genLoop cfg env cancel rest (i + 1) (processTone cfg env tone s)

/-- Processing a list of tones unconditionally, in order (no terminator,
no cancellation): the reference behaviour the cancellation theorem
compares against. -/
def runTones (cfg : Config) (env : Env) (ts : List Tone) (s : GenState) : GenState :=
  ts.foldl (fun s t => processTone cfg env t s) s

/-- The raw sample pair emitted by one `add_noise` iteration whose first
`randf()` call is draw number `r`. -/
def noisePairAt (cfg : Config) (rnd : ℕ → ℚ) (r : ℕ) : ℚ × ℚ :=
  ((rnd r - 1 / 2) * cfg.noiseFloor, (rnd (r + 1) - 1 / 2) * cfg.noiseFloor)

/-- The raw sample pair emitted by the `add_sine` iteration at sample
index `t` whose first `randf()` call is draw number `r`. -/
def sinePairAt (cfg : Config) (rnd : ℕ → ℚ) (oscc oscs : ℕ → ℚ) (att : ℚ)
    (endN t r : ℕ) : ℚ × ℚ :=
  (oscc t * cfg.gain * att * rampIn t * rampOut endN t + (rnd r - 1 / 2) * cfg.noiseSignal,
   oscs t * cfg.gain * att * rampIn t * rampOut endN t + (rnd (r + 1) - 1 / 2) * cfg.noiseSignal)

/-- `sine_pk_level`: a non-positive numeric argument is interpreted as
decibels (`pow(10.0, 1.0 / 20.0 * level)`), a positive one as a direct
linear multiplier returned unchanged. -/
noncomputable def sine_pk_level (level : ℝ) : ℝ :=
  if level ≤ 0 then (10 : ℝ) ^ (level / 20) else level

/-- A concrete configuration used to instantiate universally quantified
theorems: the default sample rate, unity gain, the default noise levels
`0.1 * 2` and `0.05 * 2`, and the default block size. -/
def cfgW : Config := ⟨1000000, 1, 1 / 5, 1 / 10, 16384⟩

/-- A concrete environment (oscillator, dB table, PRNG draws) used to
instantiate universally quantified theorems. -/
def envW : Env := ⟨fun _ _ t => ((t : ℚ), 1 - (t : ℚ)), fun d => (d : ℚ) + 30, fun n => (n : ℚ) / 7⟩

/-! ### Output sink lemmas -/

lemma signalOut_pairs (size : ℕ) (i q : ℚ) (s : SinkState) :
    (signalOut size i q s).pairs = s.pairs ++ [(i, q)] := by
  unfold signalOut
  split <;> rfl

lemma signalOut_of_eq {size : ℕ} {s : SinkState} (i q : ℚ) (h : s.pos + 2 = size) :
    signalOut size i q s =
      ⟨0, [], s.flushed ++ [s.buf ++ [encodeByte i, encodeByte q]], s.pairs ++ [(i, q)]⟩ := by
  unfold signalOut
  rw [if_pos h]

lemma signalOut_of_ne {size : ℕ} {s : SinkState} (i q : ℚ) (h : ¬(s.pos + 2 = size)) :
    signalOut size i q s =
      ⟨s.pos + 2, s.buf ++ [encodeByte i, encodeByte q], s.flushed, s.pairs ++ [(i, q)]⟩ := by
  unfold signalOut
  rw [if_neg h]

lemma writePairs_even (size : ℕ) (hpos : 0 < size) (h2 : size % 2 = 0) :
    ∀ n, (writePairs size n).pos = 2 * n % size ∧
      (writePairs size n).flushed.length = 2 * n / size ∧
      (writePairs size n).buf.length = 2 * n % size := by
  intro n
  induction n with
  | zero => simp [writePairs, initSink]
  | succ n ih =>
    obtain ⟨hp, hf, hb⟩ := ih
    have key : size * (2 * n / size) + 2 * n % size = 2 * n := Nat.div_add_mod _ _
    by_cases hflush : 2 * n % size + 2 = size
    · have hcond : (writePairs size n).pos + 2 = size := by rw [hp]; exact hflush
      have h1 : 2 * (n + 1) = size * (2 * n / size + 1) := by
        calc 2 * (n + 1) = (size * (2 * n / size) + 2 * n % size) + 2 := by rw [key]; ring
          _ = size * (2 * n / size) + (2 * n % size + 2) := by ring
          _ = size * (2 * n / size) + size := by rw [hflush]
          _ = size * (2 * n / size + 1) := by ring
      have hmod : 2 * (n + 1) % size = 0 := by rw [h1, Nat.mul_mod_right]
      have hdiv : 2 * (n + 1) / size = 2 * n / size + 1 := by
        rw [h1, Nat.mul_div_cancel_left _ hpos]
      have hstep : writePairs size (n + 1) = signalOut size 0 0 (writePairs size n) := rfl
      rw [hstep, signalOut_of_eq 0 0 hcond]
      refine ⟨?_, ?_, ?_⟩ <;> simp [hmod, hdiv, hf]
    · have hcond : ¬((writePairs size n).pos + 2 = size) := by rw [hp]; exact hflush
      have hreven : 2 ∣ 2 * n % size :=
        (Nat.dvd_mod_iff (Nat.dvd_of_mod_eq_zero h2)).mpr ⟨n, rfl⟩
      have hrlt : 2 * n % size < size := Nat.mod_lt _ hpos
      have hlt : 2 * n % size + 2 < size := by
        obtain ⟨m, hm⟩ := hreven
        obtain ⟨k, hk⟩ := Nat.dvd_of_mod_eq_zero h2
        omega
      have h1 : 2 * (n + 1) = size * (2 * n / size) + (2 * n % size + 2) := by
        calc 2 * (n + 1) = (size * (2 * n / size) + 2 * n % size) + 2 := by rw [key]; ring
          _ = size * (2 * n / size) + (2 * n % size + 2) := by ring
      have hmod : 2 * (n + 1) % size = 2 * n % size + 2 := by
        rw [h1, Nat.mul_add_mod, Nat.mod_eq_of_lt hlt]
      have hdiv : 2 * (n + 1) / size = 2 * n / size := by
        rw [h1, Nat.mul_add_div hpos, Nat.div_eq_of_lt hlt, Nat.add_zero]
      have hstep : writePairs size (n + 1) = signalOut size 0 0 (writePairs size n) := rfl
      rw [hstep, signalOut_of_ne 0 0 hcond]
      refine ⟨?_, ?_, ?_⟩ <;> simp [hmod, hdiv, hp, hf, hb]

lemma writePairs_odd (size : ℕ) (h2 : size % 2 = 1) :
    ∀ n, (writePairs size n).pos = 2 * n ∧
      (writePairs size n).flushed = [] ∧
      (writePairs size n).buf.length = 2 * n := by
  intro n
  induction n with
  | zero => simp [writePairs, initSink]
  | succ n ih =>
    obtain ⟨hp, hf, hb⟩ := ih
    have hcond : ¬((writePairs size n).pos + 2 = size) := by rw [hp]; omega
    have hstep : writePairs size (n + 1) = signalOut size 0 0 (writePairs size n) := rfl
    rw [hstep, signalOut_of_ne 0 0 hcond]
    refine ⟨?_, ?_, ?_⟩ <;> simp [hp, hf, hb] <;> omega

/-! ### Synthesis loop lemmas -/

lemma addNoiseLoop_spec (cfg : Config) (rnd : ℕ → ℚ) :
    ∀ (n : ℕ) (s : GenState),
      (addNoiseLoop cfg rnd n s).sink.pairs =
        s.sink.pairs ++ (List.range n).map (fun j => noisePairAt cfg rnd (s.rndIdx + 2 * j)) ∧
      (addNoiseLoop cfg rnd n s).rndIdx = s.rndIdx + 2 * n := by
  intro n
  induction n with
  | zero => intro s; simp [addNoiseLoop]
  | succ n ih =>
    intro s
    have hstep : addNoiseLoop cfg rnd (n + 1) s = addNoiseLoop cfg rnd n (noiseStep cfg rnd s) := rfl
    obtain ⟨hpairs, hidx⟩ := ih (noiseStep cfg rnd s)
    have h1 : (noiseStep cfg rnd s).sink.pairs = s.sink.pairs ++ [noisePairAt cfg rnd s.rndIdx] := by
      simp [noiseStep, signalOut_pairs, noisePairAt]
    have h2 : (noiseStep cfg rnd s).rndIdx = s.rndIdx + 2 := rfl
    constructor
    · rw [hstep, hpairs, h1, h2, List.append_assoc]
      congr 1
      rw [List.range_succ_eq_map, List.map_cons, List.map_map]
      simp only [List.singleton_append, Nat.mul_zero, Nat.add_zero]
      congr 1
      refine List.map_congr_left ?_
      intro j _
      simp only [Function.comp_apply]
      exact congrArg (noisePairAt cfg rnd) (by omega)
    · rw [hstep, hidx, h2]
      omega

lemma addSineFrom_spec (cfg : Config) (rnd : ℕ → ℚ) (oscc oscs : ℕ → ℚ)
    (att : ℚ) (endN : ℕ) :
    ∀ (n t : ℕ) (s : GenState),
      (addSineFrom cfg rnd oscc oscs att endN t n s).sink.pairs =
        s.sink.pairs ++ (List.range n).map
          (fun j => sinePairAt cfg rnd oscc oscs att endN (t + j) (s.rndIdx + 2 * j)) ∧
      (addSineFrom cfg rnd oscc oscs att endN t n s).rndIdx = s.rndIdx + 2 * n := by
  intro n
  induction n with
  | zero => intro t s; simp [addSineFrom]
  | succ n ih =>
    intro t s
    have hstep : addSineFrom cfg rnd oscc oscs att endN t (n + 1) s =
        addSineFrom cfg rnd oscc oscs att endN (t + 1) n
          (sineStep cfg rnd oscc oscs att endN t s) := rfl
    obtain ⟨hpairs, hidx⟩ := ih (t + 1) (sineStep cfg rnd oscc oscs att endN t s)
    have h1 : (sineStep cfg rnd oscc oscs att endN t s).sink.pairs =
        s.sink.pairs ++ [sinePairAt cfg rnd oscc oscs att endN t s.rndIdx] := by
      simp [sineStep, signalOut_pairs, sinePairAt]
    have h2 : (sineStep cfg rnd oscc oscs att endN t s).rndIdx = s.rndIdx + 2 := rfl
    constructor
    · rw [hstep, hpairs, h1, h2, List.append_assoc]
      congr 1
      rw [List.range_succ_eq_map, List.map_cons, List.map_map]
      simp only [List.singleton_append, Nat.mul_zero, Nat.add_zero]
      congr 1
      refine List.map_congr_left ?_
      intro j _
      simp only [Function.comp_apply]
      have e1 : t + Nat.succ j = (t + 1) + j := by omega
      have e2 : s.rndIdx + 2 * Nat.succ j = (s.rndIdx + 2) + 2 * j := by omega
      rw [e1, e2]
    · rw [hstep, hidx, h2]
      omega

lemma add_noise_pairs (cfg : Config) (env : Env) (us : ℕ) (s : GenState) :
    (add_noise cfg env us s).sink.pairs =
      s.sink.pairs ++ (List.range (sampleCount cfg.sampleRate us)).map
        (fun j => noisePairAt cfg env.rnd (s.rndIdx + 2 * j)) := by
  unfold add_noise
  exact (addNoiseLoop_spec cfg env.rnd (sampleCount cfg.sampleRate us) s).1

lemma add_sine_pairs (cfg : Config) (env : Env) (freq : ℚ) (us : ℕ) (db : ℤ) (s : GenState) :
    (add_sine cfg env freq us db s).sink.pairs =
      s.sink.pairs ++ (List.range (sampleCount cfg.sampleRate us)).map
        (fun j => sinePairAt cfg env.rnd
          (fun t => (env.osc freq cfg.sampleRate t).1)
          (fun t => (env.osc freq cfg.sampleRate t).2)
          (env.dbToMag db) (sampleCount cfg.sampleRate us) j (s.rndIdx + 2 * j)) := by
  unfold add_sine
  have h := (addSineFrom_spec cfg env.rnd
    (fun t => (env.osc freq cfg.sampleRate t).1)
    (fun t => (env.osc freq cfg.sampleRate t).2)
    (env.dbToMag db) (sampleCount cfg.sampleRate us)
    (sampleCount cfg.sampleRate us) 0 s).1
  simpa using h

lemma processTone_pairs_length (cfg : Config) (env : Env) (tone : Tone) (s : GenState) :
    (processTone cfg env tone s).sink.pairs.length =
      s.sink.pairs.length + sampleCount cfg.sampleRate tone.us := by
  unfold processTone
  split
  · rw [add_noise_pairs]
    simp
  · rw [add_sine_pairs]
    simp

/-! ### Claim theorems -/

/-- C1: for every tone event with `duration_us > 0`, the engine emits
exactly `floor(duration_us * sample_rate / 1_000_000)` sample pairs for
that event, on both the oscillator branch and the noise-only branch,
regardless of frequency or level.  The first conjunct counts the pairs
emitted by `processTone` (which dispatches to `add_noise` or `add_sine`
on the level); the second identifies the embedded `sampleCount` with the
mathematical floor. -/
theorem tone_sample_count_exact (cfg : Config) (env : Env) (tone : Tone) (s : GenState)
    (hus : 0 < tone.us) (hrate : 0 ≤ cfg.sampleRate) :
    (processTone cfg env tone s).sink.pairs.length =
      s.sink.pairs.length + sampleCount cfg.sampleRate tone.us ∧
    (sampleCount cfg.sampleRate tone.us : ℤ) =
      ⌊(tone.us : ℚ) * cfg.sampleRate / 1000000⌋ := by
  refine ⟨processTone_pairs_length cfg env tone s, ?_⟩
  unfold sampleCount
  rw [Int.toNat_of_nonneg]
  rw [Int.floor_nonneg]
  positivity

/-- Witness for C1 at a concrete tone of 5 microseconds at the default
sample rate: exactly 5 pairs are emitted. -/
theorem tone_sample_count_exact_witness :
    (processTone cfgW envW ⟨1000, 5, 0⟩ initGen).sink.pairs.length =
      initGen.sink.pairs.length + sampleCount cfgW.sampleRate 5 ∧
    (sampleCount cfgW.sampleRate 5 : ℤ) = ⌊((5 : ℕ) : ℚ) * cfgW.sampleRate / 1000000⌋ :=
  tone_sample_count_exact cfgW envW ⟨1000, 5, 0⟩ initGen (by decide)
    (by unfold cfgW; norm_num)

/-- C2 counterexample: the claim says the encoder produces
`clamp(round((v + 1.0) * 127.5), 0, 255)`.  At `v = 0` the code's
truncating cast gives `(int)127.5 = 127`, while rounding gives `128`:
the claimed formula does not match `signal_out`. -/
theorem encode_round_claim_false :
    encodeByte 0 = 127 ∧ specEncodeByte 0 = 128 ∧ encodeByte 0 ≠ specEncodeByte 0 := by
  have h1 : encodeByte 0 = 127 := by
    unfold encodeByte cIntCast bound
    norm_num
  have h2 : specEncodeByte 0 = 128 := by
    unfold specEncodeByte bound
    rw [round_eq]
    norm_num
  refine ⟨h1, h2, ?_⟩
  rw [h1, h2]
  decide

/-- C2 amended: the encoder produces
`clamp(trunc((v + 1.0) * 127.5), 0, 255)` with the C cast's truncation
toward zero instead of rounding to nearest.  The byte never wraps
(first conjunct); for `v` in `[-1, 1]` decoding recovers `v` within one
quantization step `1/127.5 = 2/255` (second); values above `1` saturate
to `255` and values below `-1` saturate to `0` (third and fourth). -/
theorem encode_trunc_roundtrip_saturate (v : ℚ) :
    (0 ≤ encodeByte v ∧ encodeByte v ≤ 255) ∧
    (-1 ≤ v → v ≤ 1 → |decodeByte (encodeByte v) - v| ≤ 2 / 255) ∧
    (1 < v → encodeByte v = 255) ∧
    (v < -1 → encodeByte v = 0) := by
  refine ⟨?_, ?_, ?_, ?_⟩
  · unfold encodeByte bound
    split_ifs <;> omega
  · intro h1 h2
    have hx0 : (0 : ℚ) ≤ (v + 1) * (255 / 2) := by nlinarith
    have hfl : ((⌊(v + 1) * (255 / 2)⌋ : ℤ) : ℚ) ≤ (v + 1) * (255 / 2) := Int.floor_le _
    have hfu : (v + 1) * (255 / 2) < ⌊(v + 1) * (255 / 2)⌋ + 1 := Int.lt_floor_add_one _
    have hfl0 : (0 : ℤ) ≤ ⌊(v + 1) * (255 / 2)⌋ := Int.floor_nonneg.mpr hx0
    have hfl255 : ⌊(v + 1) * (255 / 2)⌋ ≤ 255 := by
      have hle : ⌊(v + 1) * (255 / 2)⌋ ≤ ⌊(255 : ℚ)⌋ := Int.floor_le_floor (by nlinarith)
      simpa using hle
    have henc : encodeByte v = ⌊(v + 1) * (255 / 2)⌋ := by
      unfold encodeByte cIntCast bound
      rw [if_pos hx0]
      split_ifs <;> omega
    rw [henc]
    unfold decodeByte
    rw [abs_le]
    constructor <;> linarith
  · intro h
    have hx0 : (0 : ℚ) ≤ (v + 1) * (255 / 2) := by nlinarith
    have h255 : (255 : ℤ) ≤ ⌊(v + 1) * (255 / 2)⌋ := by
      apply Int.le_floor.mpr
      push_cast
      nlinarith
    unfold encodeByte cIntCast bound
    rw [if_pos hx0]
    split_ifs <;> omega
  · intro h
    have hxneg : (v + 1) * (255 / 2) < 0 := by nlinarith
    have hceil : ⌈(v + 1) * (255 / 2)⌉ ≤ 0 := by
      apply Int.ceil_le.mpr
      push_cast
      linarith
    unfold encodeByte cIntCast bound
    rw [if_neg (by linarith : ¬(0 : ℚ) ≤ (v + 1) * (255 / 2))]
    split_ifs <;> omega

/-- Witness for C2 (amended) at `v = 1/2`: the decoded byte is within
one quantization step of the input. -/
theorem encode_trunc_roundtrip_saturate_witness :
    |decodeByte (encodeByte (1 / 2)) - 1 / 2| ≤ 2 / 255 :=
  (encode_trunc_roundtrip_saturate (1 / 2)).2.1 (by norm_num) (by norm_num)

/-- C3: for a tone with `level_db < -24`, the emitted output does not
depend on the tone's `frequency_hz` (first conjunct) nor on the
oscillator or dB table at all (second conjunct), and every emitted
sample pair is a noise-source draw scaled by `noise_floor` (third
conjunct). -/
theorem low_level_tone_noise_only (cfg : Config) (env : Env) (tone : Tone) (s : GenState)
    (hz1 : ℚ) (oscF : ℚ → ℚ → ℕ → ℚ × ℚ) (dbF : ℤ → ℚ) (h : tone.db < -24) :
    processTone cfg env ⟨hz1, tone.us, tone.db⟩ s = processTone cfg env tone s ∧
    processTone cfg ⟨oscF, dbF, env.rnd⟩ tone s = processTone cfg env tone s ∧
    (processTone cfg env tone s).sink.pairs =
      s.sink.pairs ++ (List.range (sampleCount cfg.sampleRate tone.us)).map
        (fun j => ((env.rnd (s.rndIdx + 2 * j) - 1 / 2) * cfg.noiseFloor,
                   (env.rnd (s.rndIdx + 2 * j + 1) - 1 / 2) * cfg.noiseFloor)) := by
  have hp : ∀ (e : Env) (t : Tone), t.db < -24 → processTone cfg e t s = add_noise cfg e t.us s := by
    intro e t ht
    unfold processTone
    rw [if_pos ht]
  refine ⟨?_, ?_, ?_⟩
  · rw [hp env ⟨hz1, tone.us, tone.db⟩ h, hp env tone h]
  · rw [hp ⟨oscF, dbF, env.rnd⟩ tone h, hp env tone h]
    unfold add_noise
    rfl
  · rw [hp env tone h, add_noise_pairs]
    simp [noisePairAt]

/-- Witness for C3: a tone at -30 dB emits the same output whether its
frequency field is 42 or 7. -/
theorem low_level_tone_noise_only_witness :
    processTone cfgW envW ⟨42, 5, -30⟩ initGen = processTone cfgW envW ⟨7, 5, -30⟩ initGen :=
  (low_level_tone_noise_only cfgW envW ⟨7, 5, -30⟩ initGen 42 envW.osc envW.dbToMag
    (by decide)).1

/-- C4 counterexample: the block buffer holds `block_size` bytes and a
sample pair is two bytes, so — starting from an empty buffer with the
minimal accepted block size 512 — writing 512 sample pairs produces two
flushes, not one, and writing 511 pairs produces one flush, not zero. -/
theorem blocksize_pairs_flush_claim_false :
    (writePairs 512 512).flushed.length ≠ 1 ∧
    (writePairs 512 511).flushed.length ≠ 0 := by
  have h1 := (writePairs_even 512 (by norm_num) (by norm_num) 512).2.1
  have h2 := (writePairs_even 512 (by norm_num) (by norm_num) 511).2.1
  constructor
  · rw [h1]
    norm_num
  · rw [h2]
    norm_num

/-- C4 amended: with an accepted even block size, writing exactly
`block_size / 2` sample pairs (= `block_size` bytes) from an empty
buffer produces exactly one flush and resets the cursor to zero, and
writing `block_size / 2 - 1` pairs produces zero flushes. -/
theorem half_blocksize_pairs_single_flush (size : ℕ) (h2 : size % 2 = 0)
    (hlo : 512 ≤ size) (hhi : size ≤ 4194304) :
    acceptedSize size = size ∧
    (writePairs size (size / 2)).flushed.length = 1 ∧
    (writePairs size (size / 2)).pos = 0 ∧
    (writePairs size (size / 2 - 1)).flushed.length = 0 := by
  have hpos : 0 < size := by omega
  have hfull := writePairs_even size hpos h2 (size / 2)
  have hpart := writePairs_even size hpos h2 (size / 2 - 1)
  have hdouble : 2 * (size / 2) = size := Nat.mul_div_cancel' (Nat.dvd_of_mod_eq_zero h2)
  have hm1 : 2 * (size / 2 - 1) = size - 2 := by omega
  refine ⟨?_, ?_, ?_, ?_⟩
  · unfold acceptedSize
    rw [if_neg (by omega : ¬(size < 512 ∨ 4194304 < size))]
  · rw [hfull.2.1, hdouble, Nat.div_self hpos]
  · rw [hfull.1, hdouble, Nat.mod_self]
  · rw [hpart.2.1, hm1, Nat.div_eq_of_lt (by omega)]

/-- Witness for C4 (amended) at the minimal accepted block size 512:
256 pairs produce one flush and reset the cursor; 255 pairs produce no
flush. -/
theorem half_blocksize_pairs_single_flush_witness :
    acceptedSize 512 = 512 ∧
    (writePairs 512 (512 / 2)).flushed.length = 1 ∧
    (writePairs 512 (512 / 2)).pos = 0 ∧
    (writePairs 512 (512 / 2 - 1)).flushed.length = 0 :=
  half_blocksize_pairs_single_flush 512 (by norm_num) (by norm_num) (by norm_num)

/-- C5 (code bug): the odd block size 513 survives the configuration
check unchanged, but because `signal_out` advances the cursor by two
and only tests equality with the block size, the cursor steps over the
capacity: after 257 pair writes it stands at 514 > 513 (the write of
byte index 513 is out of bounds) and no flush or reset ever happened. -/
theorem odd_blocksize_cursor_overflow :
    acceptedSize 513 = 513 ∧
    (writePairs 513 257).pos = 514 ∧
    513 < (writePairs 513 257).pos ∧
    (writePairs 513 257).flushed = [] := by
  have h := writePairs_odd 513 (by norm_num) 257
  refine ⟨?_, ?_, ?_, ?_⟩
  · unfold acceptedSize
    norm_num
  · rw [h.1]
  · rw [h.1]
    norm_num
  · exact h.2.1

/-- C6: for a tone with `sample_count ≥ 2 * ramp_samples` (with
`ramp_samples = 100`), the envelope multiplier at index `t` is the
linear ramp `t/100` over the first 100 samples, exactly 1 for all
middle indices, and the linear ramp `(sample_count - t)/100` in the
last indices; it is monotonically non-decreasing on the first 100
indices and monotonically non-increasing on the last 100. -/
theorem envelope_ramp_shape (e t : ℕ) (he : 200 ≤ e) (ht : t < e) :
    (t < 100 → ramp e t = (1 / 100) * (t : ℚ)) ∧
    (100 ≤ t → t + 100 ≤ e → ramp e t = 1) ∧
    (e < t + 100 → ramp e t = (1 / 100) * ((e - t : ℕ) : ℚ)) ∧
    (t + 1 < 100 → ramp e t ≤ ramp e (t + 1)) ∧
    (e ≤ t + 100 → t + 1 < e → ramp e (t + 1) ≤ ramp e t) := by
  refine ⟨?_, ?_, ?_, ?_, ?_⟩
  · intro h
    unfold ramp rampIn rampOut
    rw [if_pos h, if_neg (by omega : ¬ e < t + 100), mul_one]
  · intro h1 h2
    unfold ramp rampIn rampOut
    rw [if_neg (by omega : ¬ t < 100), if_neg (by omega : ¬ e < t + 100), mul_one]
  · intro h
    unfold ramp rampIn rampOut
    rw [if_neg (by omega : ¬ t < 100), if_pos h, one_mul]
  · intro h
    unfold ramp rampIn rampOut
    rw [if_pos (by omega : t < 100), if_neg (by omega : ¬ e < t + 100),
      if_pos (by omega : t + 1 < 100), if_neg (by omega : ¬ e < t + 1 + 100)]
    rw [mul_one, mul_one]
    push_cast
    linarith
  · intro h1 h2
    unfold ramp rampIn rampOut
    rw [if_neg (by omega : ¬ t < 100), if_neg (by omega : ¬ t + 1 < 100), one_mul, one_mul]
    by_cases hc : e < t + 100
    · rw [if_pos hc, if_pos (by omega : e < t + 1 + 100)]
      have hnat : (e - (t + 1) : ℕ) ≤ (e - t : ℕ) := by omega
      have hq : ((e - (t + 1) : ℕ) : ℚ) ≤ ((e - t : ℕ) : ℚ) := by exact_mod_cast hnat
      linarith
    · rw [if_neg hc, if_pos (by omega : e < t + 1 + 100)]
      have hnat : (e - (t + 1) : ℕ) ≤ 100 := by omega
      have hq : ((e - (t + 1) : ℕ) : ℚ) ≤ 100 := by exact_mod_cast hnat
      linarith

/-- Witness for C6 at `sample_count = 200`, `t = 150` (inside the
out-ramp): the envelope is non-increasing there. -/
theorem envelope_ramp_shape_witness :
    ramp 200 151 ≤ ramp 200 150 :=
  (envelope_ramp_shape 200 150 (by norm_num) (by norm_num)).2.2.2.2
    (by norm_num) (by norm_num)

lemma genLoop_cancel_take (cfg : Config) (env : Env) (cancel : ℕ → Bool) :
    ∀ (k : ℕ) (tones : List Tone) (i : ℕ) (s : GenState),
      k ≤ tones.length →
      (∀ t ∈ tones.take k, t.us ≠ 0) →
      (∀ j, j < k → cancel (i + j) = false) →
      cancel (i + k) = true →
      genLoop cfg env cancel tones i s = runTones cfg env (tones.take k) s := by
  intro k
  induction k with
  | zero =>
    intro tones i s _ _ _ hat
    cases tones with
    | nil => rfl
    | cons tone rest =>
      have hcancel : cancel i = true := by simpa using hat
      unfold genLoop
      rw [if_pos (Or.inr hcancel)]
      rfl
  | succ k ih =>
    intro tones i s hk hterm hbefore hat
    cases tones with
    | nil => simp at hk
    | cons tone rest =>
      have hus : tone.us ≠ 0 := hterm tone (by simp)
      have hc0 : cancel i = false := by simpa using hbefore 0 (by omega)
      unfold genLoop
      rw [if_neg (by simp [hus, hc0])]
      have hrec := ih rest (i + 1) (processTone cfg env tone s)
        (by simpa using hk)
        (fun t htm => hterm t (List.mem_cons.mpr (Or.inr htm)))
        (by
          intro j hj
          have hb := hbefore (j + 1) (by omega)
          have e : i + (j + 1) = i + 1 + j := by omega
          rw [e] at hb
          exact hb)
        (by
          have e : i + (k + 1) = i + 1 + k := by omega
          rw [e] at hat
          exact hat)
      rw [hrec]
      rfl

/-- C7: cancellation is observed only between tone events.  If the
`do_exit` flag reads false at the checks before tones 1..k and true at
the check after tone k (and the first k timeline entries are real
tones, not the terminator), then the run emits exactly the output of
tones 1..k — whole tones only, already-written output retained.  With
`k = 0` (flag set before the first tone) the state is unchanged: zero
sample pairs are emitted. -/
theorem cancellation_between_tones (cfg : Config) (env : Env) (cancel : ℕ → Bool)
    (tones : List Tone) (s : GenState) (k : ℕ)
    (hk : k ≤ tones.length)
    (hterm : ∀ t ∈ tones.take k, t.us ≠ 0)
    (hbefore : ∀ j, j < k → cancel j = false)
    (hat : cancel k = true) :
    genLoop cfg env cancel tones 0 s = runTones cfg env (tones.take k) s := by
  refine genLoop_cancel_take cfg env cancel k tones 0 s hk hterm ?_ ?_
  · intro j hj
    simpa using hbefore j hj
  · simpa using hat

/-- Witness for C7: the flag becomes visible after the first tone of a
two-entry timeline; exactly the first tone is synthesized. -/
theorem cancellation_between_tones_witness :
    genLoop cfgW envW (fun i => decide (1 ≤ i)) [⟨1000, 7, 0⟩, ⟨0, 0, 0⟩] 0 initGen =
      runTones cfgW envW ([⟨1000, 7, 0⟩, ⟨0, 0, 0⟩].take 1) initGen :=
  cancellation_between_tones cfgW envW (fun i => decide (1 ≤ i))
    [⟨1000, 7, 0⟩, ⟨0, 0, 0⟩] initGen 1
    (by norm_num)
    (by decide)
    (by
      intro j hj
      have hj0 : j = 0 := by omega
      subst hj0
      rfl)
    rfl

/-- C8: the emitted output is a deterministic function of the random
draw sequence (together with the timeline and configuration): two runs
whose PRNG streams agree pointwise — as they do for two `srand` calls
with the same `random_seed` — produce identical engine states, hence
byte-identical output streams. -/
theorem output_deterministic_in_rng (cfg : Config) (oscF : ℚ → ℚ → ℕ → ℚ × ℚ)
    (dbF : ℤ → ℚ) (cancel : ℕ → Bool) (tones : List Tone) (i : ℕ) (s : GenState)
    (r1 r2 : ℕ → ℚ) (h : ∀ n, r1 n = r2 n) :
    genLoop cfg ⟨oscF, dbF, r1⟩ cancel tones i s =
      genLoop cfg ⟨oscF, dbF, r2⟩ cancel tones i s := by
  have he : r1 = r2 := funext h
  rw [he]

/-- Witness for C8 with two syntactically different but pointwise equal
draw streams. -/
theorem output_deterministic_in_rng_witness :
    genLoop cfgW ⟨envW.osc, envW.dbToMag, fun n => (n : ℚ) + 1⟩ (fun _ => false)
        [⟨1000, 3, 0⟩, ⟨0, 0, 0⟩] 0 initGen =
      genLoop cfgW ⟨envW.osc, envW.dbToMag, fun n => 1 + (n : ℚ)⟩ (fun _ => false)
        [⟨1000, 3, 0⟩, ⟨0, 0, 0⟩] 0 initGen :=
  output_deterministic_in_rng cfgW envW.osc envW.dbToMag (fun _ => false)
    [⟨1000, 3, 0⟩, ⟨0, 0, 0⟩] 0 initGen (fun n => (n : ℚ) + 1) (fun n => 1 + (n : ℚ))
    (fun _ => add_comm _ _)

/-- C9: the tone level converter `sine_pk_level` interprets a
non-positive argument as decibels, returning `10 ^ (arg / 20)`, and a
positive argument as a direct linear multiplier returned unchanged; an
argument of exactly 0 takes the dB branch and yields unity gain 1. -/
theorem tone_level_sign_dispatch (l : ℝ) :
    (l ≤ 0 → sine_pk_level l = (10 : ℝ) ^ (l / 20)) ∧
    (0 < l → sine_pk_level l = l) ∧
    sine_pk_level 0 = 1 := by
  refine ⟨?_, ?_, ?_⟩
  · intro h
    unfold sine_pk_level
    rw [if_pos h]
  · intro h
    unfold sine_pk_level
    rw [if_neg (by linarith)]
  · unfold sine_pk_level
    rw [if_pos le_rfl, zero_div, Real.rpow_zero]

/-- Witness for C9: a positive argument (2) is returned unchanged. -/
theorem tone_level_sign_dispatch_witness :
    sine_pk_level 2 = 2 :=
  (tone_level_sign_dispatch 2).2.1 (by norm_num)

/-- C10: the noise disturbance added to each emitted sample is scaled
only by the configured noise amplitude — `noise_signal` on the
oscillator branch, `noise_floor` on the noise-only branch — and is
never multiplied by the gain, the tone amplitude, or the envelope
ramps: in the closed form of every emitted pair the noise addend is
`(draw - 1/2) * amplitude`, the same shape at every sample index,
ramped or not. -/
theorem noise_unscaled_by_gain_envelope (cfg : Config) (env : Env) (freq : ℚ) (us : ℕ)
    (db : ℤ) (s : GenState) :
    (add_sine cfg env freq us db s).sink.pairs =
      s.sink.pairs ++ (List.range (sampleCount cfg.sampleRate us)).map (fun t =>
        ((env.osc freq cfg.sampleRate t).1 * cfg.gain * env.dbToMag db * rampIn t *
            rampOut (sampleCount cfg.sampleRate us) t +
          (env.rnd (s.rndIdx + 2 * t) - 1 / 2) * cfg.noiseSignal,
         (env.osc freq cfg.sampleRate t).2 * cfg.gain * env.dbToMag db * rampIn t *
            rampOut (sampleCount cfg.sampleRate us) t +
          (env.rnd (s.rndIdx + 2 * t + 1) - 1 / 2) * cfg.noiseSignal)) ∧
    (add_noise cfg env us s).sink.pairs =
      s.sink.pairs ++ (List.range (sampleCount cfg.sampleRate us)).map (fun t =>
        ((env.rnd (s.rndIdx + 2 * t) - 1 / 2) * cfg.noiseFloor,
         (env.rnd (s.rndIdx + 2 * t + 1) - 1 / 2) * cfg.noiseFloor)) := by
  constructor
  · rw [add_sine_pairs]
    simp [sinePairAt]
  · rw [add_noise_pairs]
    simp [noisePairAt]

end CodeGen
